import Mathlib

/-!
Verification of the MINICAM capture orchestration engine against its
natural-language specification.  The definitions below are shallow
embeddings of the corresponding functions in `app.py`; theorems settle the
frozen claims C1..C10.
-/

namespace Minicam

/-! ## Frame buffer (StreamWorker.run, app.py lines 94-108)

The per-camera frame queue.  The worker publishes a frame with
`if q.qsize() > 1: q.get_nowait()` followed by `q.put(frame)`; the consumer
reads with `q.get_nowait()` and restart drains the queue.  Frames are
modelled by their publish sequence number (a `Nat`). -/

inductive BufOp where
  | publish (f : Nat)
  | take
  | drain
deriving DecidableEq, Repr

/-- One buffer operation, exactly as the code performs it:
publish evicts the oldest entry first when more than one entry is held,
`take` removes the oldest entry, `drain` empties the queue. -/
def bufStep (q : List Nat) : BufOp → List Nat
  | BufOp.publish f => if 1 < q.length then q.tail ++ [f] else q ++ [f]
  | BufOp.take => q.tail
  | BufOp.drain => []

/-- Run a sequence of buffer operations from the empty buffer. -/
def bufRun (ops : List BufOp) : List Nat := ops.foldl bufStep []

/-- Non-blocking read: returns the oldest held frame (the queue head). -/
def tryTake (q : List Nat) : Option Nat × List Nat := (q.head?, q.tail)

/-- The publishes in `ops` carry strictly increasing sequence numbers,
all at least `n` (the ingestion worker publishes frames in arrival order). -/
def pubsIncreasingFrom : Nat → List BufOp → Bool
  | _, [] => true
  | n, BufOp.publish f :: rest => decide (n ≤ f) && pubsIncreasingFrom (f + 1) rest
  | n, BufOp.take :: rest => pubsIncreasingFrom n rest
  | n, BufOp.drain :: rest => pubsIncreasingFrom n rest

lemma bufStep_publish_len_le {q : List Nat} (h : q.length ≤ 2) (f : Nat) :
    (bufStep q (BufOp.publish f)).length ≤ 2 := by
  by_cases h1 : 1 < q.length
  · simp only [bufStep, if_pos h1, List.length_append, List.length_tail,
      List.length_singleton]
    omega
  · simp only [bufStep, if_neg h1, List.length_append, List.length_singleton]
    omega

lemma bufStep_publish_sorted {q : List Nat} {n f : Nat}
    (hs : List.Sorted (· < ·) q) (hb : ∀ x ∈ q, x < n) (hnf : n ≤ f) :
    List.Sorted (· < ·) (bufStep q (BufOp.publish f)) := by
  have hq : List.Sorted (· < ·) (q ++ [f]) := by
    rw [List.Sorted, List.pairwise_append]
    refine ⟨hs, List.pairwise_singleton _ _, ?_⟩
    intro a ha b hb'
    have : b = f := by simpa using hb'
    subst this
    exact lt_of_lt_of_le (hb a ha) hnf
  by_cases h1 : 1 < q.length
  · simp only [bufStep, if_pos h1]
    have htail : List.Sorted (· < ·) (q.tail ++ [f]) := by
      rw [List.Sorted, List.pairwise_append]
      refine ⟨hs.tail, List.pairwise_singleton _ _, ?_⟩
      intro a ha b hb'
      have : b = f := by simpa using hb'
      subst this
      exact lt_of_lt_of_le (hb a (List.mem_of_mem_tail ha)) hnf
    exact htail
  · simpa only [bufStep, if_neg h1] using hq

lemma bufStep_publish_bound {q : List Nat} {n f : Nat}
    (hb : ∀ x ∈ q, x < n) (hnf : n ≤ f) :
    ∀ x ∈ bufStep q (BufOp.publish f), x < f + 1 := by
  intro x hx
  by_cases h1 : 1 < q.length
  · simp only [bufStep, if_pos h1, List.mem_append, List.mem_singleton] at hx
    rcases hx with hx | hx
    · exact lt_of_lt_of_le (lt_of_lt_of_le (hb x (List.mem_of_mem_tail hx)) hnf)
        (Nat.le_succ f)
    · omega
  · simp only [bufStep, if_neg h1, List.mem_append, List.mem_singleton] at hx
    rcases hx with hx | hx
    · exact lt_of_lt_of_le (lt_of_lt_of_le (hb x hx) hnf) (Nat.le_succ f)
    · omega

/-- Invariant carried through a run: bounded size, strictly increasing
contents (oldest at the head), all entries below the next sequence number. -/
lemma bufRun_invariant (ops : List BufOp) :
    ∀ (q : List Nat) (n : Nat), q.length ≤ 2 → List.Sorted (· < ·) q →
      (∀ x ∈ q, x < n) → pubsIncreasingFrom n ops = true →
      (ops.foldl bufStep q).length ≤ 2 ∧
        List.Sorted (· < ·) (ops.foldl bufStep q) := by
  induction ops with
  | nil => intro q n hlen hs _ _; exact ⟨hlen, hs⟩
  | cons op rest ih =>
    intro q n hlen hs hb hinc
    cases op with
    | publish f =>
      simp only [pubsIncreasingFrom, Bool.and_eq_true, decide_eq_true_eq] at hinc
      obtain ⟨hnf, hrest⟩ := hinc
      refine ih (bufStep q (BufOp.publish f)) (f + 1)
        (bufStep_publish_len_le hlen f)
        (bufStep_publish_sorted hs hb hnf)
        (bufStep_publish_bound hb hnf) hrest
    | take =>
      simp only [pubsIncreasingFrom] at hinc
      refine ih (bufStep q BufOp.take) n ?_ ?_ ?_ hinc
      · simp only [bufStep, List.length_tail]; omega
      · exact hs.tail
      · intro x hx; exact hb x (List.mem_of_mem_tail hx)
    | drain =>
      simp only [pubsIncreasingFrom] at hinc
      refine ih (bufStep q BufOp.drain) n ?_ ?_ ?_ hinc
      · simp [bufStep]
      · simp [bufStep]
      · intro x hx; simp [bufStep] at hx

lemma sorted_head_le {q : List Nat} {h0 : Nat}
    (hs : List.Sorted (· < ·) q) (hh : q.head? = some h0) :
    ∀ x ∈ q, h0 ≤ x := by
  cases q with
  | nil => simp at hh
  | cons a t =>
    have ha : h0 = a := by simpa using hh.symm
    subst ha
    intro x hx
    rcases List.mem_cons.mp hx with hx | hx
    · omega
    · exact le_of_lt ((List.pairwise_cons.mp hs).1 x hx)

/-- Claim C3: for every sequence of frame publishes (interleaved with reads
and drains), the per-camera frame buffer never holds more than 2 frames;
when a new frame arrives and the buffer already holds 2, the oldest frame
is discarded before inserting; and a non-blocking take returns the oldest
still-held frame first (the head, which is minimal among held frames). -/
theorem frameBuffer_bounded_oldest_first (ops : List BufOp)
    (hinc : pubsIncreasingFrom 0 ops = true) :
    (bufRun ops).length ≤ 2 ∧
    (∀ (q : List Nat) (f : Nat), q.length = 2 →
      bufStep q (BufOp.publish f) = q.tail ++ [f]) ∧
    (tryTake (bufRun ops)).1 = (bufRun ops).head? ∧
    (∀ h0 x, (bufRun ops).head? = some h0 → x ∈ bufRun ops → h0 ≤ x) := by
  have hinv := bufRun_invariant ops [] 0 (by simp) (by simp) (by simp) hinc
  refine ⟨hinv.1, ?_, rfl, ?_⟩
  · intro q f hq
    simp [bufStep, hq]
  · intro h0 x hh hx
    exact sorted_head_le hinv.2 hh x hx

theorem frameBuffer_bounded_oldest_first_witness :
    (bufRun [BufOp.publish 0, BufOp.publish 1, BufOp.publish 2, BufOp.take,
      BufOp.publish 5]).length ≤ 2 :=
  (frameBuffer_bounded_oldest_first _ (by decide)).1

/-! ## PTZ sequence data model (ONVIF settings steps, app.py)

A step is a TOML mapping with optional `name`, `delay_sec`, a `ptz`
sub-mapping and optional focus directives.  Times are modelled as
rationals; the `moveType` field holds the lower-cased `type` string
(the code dispatches on the strings "continuous" and "absolute" and
treats anything else as a relative move). -/

structure PtzCfg where
  moveType : String
  pan : Option ℚ
  tilt : Option ℚ
  zoom : Option ℚ
  speed_pan : Option ℚ
  speed_tilt : Option ℚ
  speed_zoom : Option ℚ
  duration_sec : Option ℚ
deriving DecidableEq, Repr

structure SeqStep where
  name : Option String
  delay_sec : Option ℚ
  ptz : Option PtzCfg
  focus_mode : Option String
  focus_default_speed : Option ℚ
  focus_near_limit : Option ℚ
  focus_far_limit : Option ℚ
deriving DecidableEq, Repr

/-- A step with no fields set (an empty TOML step mapping). -/
def blankStep : SeqStep :=
  { name := none, delay_sec := none, ptz := none, focus_mode := none,
    focus_default_speed := none, focus_near_limit := none,
    focus_far_limit := none }

/-- Filesystem-safe token: keep alphanumerics, hyphen, underscore and
space, then strip and replace spaces by underscores
(app.py lines 1055-1056). -/
def sanitizeToken (s : String) : String :=
  ((((s.toList.filter
      (fun c => c.isAlphanum || c = '-' || c = '_' || c = ' '))).asString).trim).replace (" ") ("_")

/-- Capture file name for step `i`: `{ts}_{sanitized_step_name}.jpg`,
falling back to `step_{i+1}` when the name is missing or sanitizes to
nothing (app.py lines 1054-1056, 1070). -/
def stepFileName (ts : String) (i : Nat) (st : SeqStep) : String :=
  let dflt := "step_" ++ toString (i + 1)
  let nm := match st.name with
    | some s => if s = "" then dflt else s
    | none => dflt
  let safe := sanitizeToken nm
  ts ++ "_" ++ (if safe = "" then dflt else safe) ++ ".jpg"

/-! ## Sequence execution (App._snapshot_onvif_sequence, app.py 1044-1072)

The observable events of one sequence run.  The environment is modelled by
two predicates on the step index: `applyFails i` says the move/apply
protocol calls of step `i` raise, `captureFails i` says the device
snapshot capture of step `i` raises.  In the code the apply call is
wrapped in `try/except` (status message, `continue`); the capture call is
not wrapped, so a capture exception propagates out of the loop.  The
boolean result records whether the loop ran to completion (reaching the
final "Snapshots saved" status). -/

inductive SeqEvent where
  | stepError (i : Nat)
  | captured (i : Nat) (file : String)
  | savedStatus
deriving DecidableEq, Repr

def snapshot_onvif_sequence (applyFails captureFails : Nat → Bool)
    (ts : String) : Nat → List SeqStep → List SeqEvent × Bool
  | _, [] => ([SeqEvent.savedStatus], true)
  | i, st :: rest =>
    if applyFails i then
      let r := snapshot_onvif_sequence applyFails captureFails ts (i + 1) rest
      (SeqEvent.stepError i :: r.1, r.2)
    else if captureFails i then
      ([], false)
    else
      let r := snapshot_onvif_sequence applyFails captureFails ts (i + 1) rest
      (SeqEvent.captured i (stepFileName ts i st) :: r.1, r.2)

/-- The spec-side event list for a run in which captures succeed: one
event per step, strictly in list order; a step whose move fails yields a
reported error, every other step yields its capture output. -/
def specSeqEvents (applyFails : Nat → Bool) (ts : String) :
    Nat → List SeqStep → List SeqEvent
  | _, [] => [SeqEvent.savedStatus]
  | i, st :: rest =>
    (if applyFails i then SeqEvent.stepError i
     else SeqEvent.captured i (stepFileName ts i st))
      :: specSeqEvents applyFails ts (i + 1) rest

/-- Claim C2: whenever device snapshot captures succeed, a sequence run
executes every step strictly in list order whatever moves fail: each step
with a failing move/apply call yields a reported step error and its
capture is skipped, every other step yields its capture output, and the
run completes. -/
theorem seq_move_failure_tolerant (applyFails captureFails : Nat → Bool)
    (ts : String) (i : Nat) (steps : List SeqStep)
    (hg : ∀ j, captureFails j = false) :
    snapshot_onvif_sequence applyFails captureFails ts i steps
      = (specSeqEvents applyFails ts i steps, true) := by
  induction steps generalizing i with
  | nil => rfl
  | cons st rest ih =>
    by_cases ha : applyFails i
    · simp [snapshot_onvif_sequence, specSeqEvents, ha, ih]
    · simp [snapshot_onvif_sequence, specSeqEvents, ha, hg i, ih]

theorem seq_move_failure_tolerant_witness :
    snapshot_onvif_sequence (fun j => j == 1) (fun _ => false) "T" 0
        [blankStep, blankStep, blankStep]
      = (specSeqEvents (fun j => j == 1) "T" 0
          [blankStep, blankStep, blankStep], true) :=
  seq_move_failure_tolerant _ _ _ _ _ (fun _ => rfl)

/-- Claim C1 counterexample: in a two-step run where the device snapshot
capture of the first step raises (moves all succeed), the run aborts with no
events at all — the second step is neither executed nor captured, and no
status message reports the capture failure.  This refutes the claim that
a capture failure is reported and the remaining steps still run. -/
theorem seq_capture_failure_not_tolerated :
    snapshot_onvif_sequence (fun _ => false) (fun j => j == 0) "T" 0
        [blankStep, blankStep] = ([], false) ∧
    (∀ e, e ∈ (snapshot_onvif_sequence (fun _ => false) (fun j => j == 0)
        "T" 0 [blankStep, blankStep]).1 → False) := by
  refine ⟨rfl, ?_⟩
  intro e he
  simp [snapshot_onvif_sequence] at he

/-- Claim C1 (amended): a failing move/apply call is reported and the run
continues (see C2), but a failing device snapshot capture aborts the run:
once the first step whose apply succeeds and whose capture raises is
reached, the run ends incomplete, no event of any later step is produced,
and the final "Snapshots saved" status is never reached. -/
theorem seq_capture_failure_aborts (applyFails captureFails : Nat → Bool)
    (ts : String) (pre : List SeqStep) (st : SeqStep) (post : List SeqStep)
    (i : Nat)
    (hpre : ∀ j, j < pre.length →
      applyFails (i + j) = true ∨ captureFails (i + j) = false)
    (ha : applyFails (i + pre.length) = false)
    (hc : captureFails (i + pre.length) = true) :
    (snapshot_onvif_sequence applyFails captureFails ts i
        (pre ++ st :: post)).2 = false ∧
    ∀ e ∈ (snapshot_onvif_sequence applyFails captureFails ts i
        (pre ++ st :: post)).1,
      (∀ j f, e = SeqEvent.captured j f → j < i + pre.length) ∧
        e ≠ SeqEvent.savedStatus := by
  induction pre generalizing i with
  | nil =>
    simp only [List.length_nil, Nat.add_zero] at ha hc
    simp [snapshot_onvif_sequence, ha, hc]
  | cons p pre ih =>
    have hlen : (p :: pre).length = pre.length + 1 := rfl
    rcases hpre 0 (by simp) with hap | hcp
    · simp only [Nat.add_zero] at hap
      have ihres := ih (i + 1)
        (fun j hj => by
          have := hpre (j + 1) (by simpa using Nat.succ_lt_succ hj)
          simpa [Nat.add_assoc, Nat.add_comm 1 j] using this)
        (by simpa [hlen, Nat.add_assoc, Nat.add_comm 1 pre.length] using ha)
        (by simpa [hlen, Nat.add_assoc, Nat.add_comm 1 pre.length] using hc)
      simp only [List.cons_append, snapshot_onvif_sequence, hap, if_true]
      refine ⟨ihres.1, ?_⟩
      intro e he
      rcases List.mem_cons.mp he with he | he
      · subst he
        exact ⟨fun j f hjf => by simp at hjf, by simp⟩
      · have := ihres.2 e he
        refine ⟨fun j f hjf => ?_, this.2⟩
        have hj := this.1 j f hjf
        simp only [hlen]
        omega
    · simp only [Nat.add_zero] at hcp
      by_cases hap : applyFails i
      · have ihres := ih (i + 1)
          (fun j hj => by
            have := hpre (j + 1) (by simpa using Nat.succ_lt_succ hj)
            simpa [Nat.add_assoc, Nat.add_comm 1 j] using this)
          (by simpa [hlen, Nat.add_assoc, Nat.add_comm 1 pre.length] using ha)
          (by simpa [hlen, Nat.add_assoc, Nat.add_comm 1 pre.length] using hc)
        simp only [List.cons_append, snapshot_onvif_sequence, hap, if_true]
        refine ⟨ihres.1, ?_⟩
        intro e he
        rcases List.mem_cons.mp he with he | he
        · subst he
          exact ⟨fun j f hjf => by simp at hjf, by simp⟩
        · have := ihres.2 e he
          refine ⟨fun j f hjf => ?_, this.2⟩
          have hj := this.1 j f hjf
          simp only [hlen]
          omega
      · have ihres := ih (i + 1)
          (fun j hj => by
            have := hpre (j + 1) (by simpa using Nat.succ_lt_succ hj)
            simpa [Nat.add_assoc, Nat.add_comm 1 j] using this)
          (by simpa [hlen, Nat.add_assoc, Nat.add_comm 1 pre.length] using ha)
          (by simpa [hlen, Nat.add_assoc, Nat.add_comm 1 pre.length] using hc)
        simp only [List.cons_append, snapshot_onvif_sequence, hap,
          if_false, Bool.false_eq_true, hcp]
        refine ⟨ihres.1, ?_⟩
        intro e he
        rcases List.mem_cons.mp he with he | he
        · subst he
          refine ⟨fun j f hjf => ?_, by simp⟩
          injection hjf.symm with h1 h2
          subst h1
          simp only [hlen]
          omega
        · have := ihres.2 e he
          refine ⟨fun j f hjf => ?_, this.2⟩
          have hj := this.1 j f hjf
          simp only [hlen]
          omega

theorem seq_capture_failure_aborts_witness :
    (snapshot_onvif_sequence (fun _ => false) (fun j => j == 1) "T" 0
        ([blankStep] ++ blankStep :: [blankStep])).2 = false :=
  (seq_capture_failure_aborts (fun _ => false) (fun j => j == 1) "T"
    [blankStep] blankStep [blankStep] 0
    (by intro j hj; right; simp at hj; subst hj; rfl)
    (by rfl) (by rfl)).1

/-! ## Auto-capture scheduler (App.toggle_auto.run_auto, app.py 726-750)

Times are in milliseconds on a virtual monotonic clock.  Each loop
iteration advances `next_time` by the period, triggers the capture job
(whose duration `jobDur` advances `now`), increments the trigger count,
breaks once an optional maximum count is reached, and otherwise sleeps
until `next_time` (modelled as `max now next_time`; the slice structure of
that sleep is `auto_sleep` below).  `stopFlag k` is the cooperative stop
flag as observed at the top of iteration `k`; the boolean result records
whether `_auto_stop` is set when the function returns (`false` only when
the fuel runs out, i.e. the loop is still running). -/

structure AutoState where
  count : Nat
  next_time : Nat
  now : Nat
  scheds : List Nat
deriving DecidableEq, Repr

def run_auto (period : Nat) (max_count : Option Nat) (stopFlag : Nat → Bool)
    (jobDur : Nat → Nat) : Nat → AutoState → AutoState × Bool
  | 0, s => (s, false)
  | fuel + 1, s =>
    if stopFlag s.count then (s, true)
    else
      let sched := s.next_time
      let s1 : AutoState :=
        { count := s.count + 1, next_time := s.next_time + period,
          now := s.now + jobDur s.count, scheds := s.scheds ++ [sched] }
      match max_count with
      | some m =>
        if m ≤ s1.count then (s1, true)
        else run_auto period max_count stopFlag jobDur fuel
          { s1 with now := max s1.now s1.next_time }
      | none =>
        run_auto period max_count stopFlag jobDur fuel
          { s1 with now := max s1.now s1.next_time }

/-- The inner sleep loop (app.py 740-745): while the stop flag (checked at
check number `k`) is unset and the scheduled time has not been reached,
sleep `min(100ms, remaining)`.  Returns the final clock value and the
list of slice durations actually slept. -/
def auto_sleep (stopFlag : Nat → Bool) (next_time : Nat) :
    Nat → Nat → Nat → Nat × List Nat
  | 0, _, now => (now, [])
  | fuel + 1, k, now =>
    if stopFlag k then (now, [])
    else if next_time ≤ now then (now, [])
    else
      let d := min 100 (next_time - now)
      let r := auto_sleep stopFlag next_time fuel (k + 1) (now + d)
      (r.1, d :: r.2)

lemma run_auto_sched_invariant (period : Nat) (mc : Option Nat)
    (stopFlag : Nat → Bool) (jobDur : Nat → Nat) :
    ∀ (fuel : Nat) (s : AutoState) (t0 : Nat),
      s.next_time = t0 + s.count * period →
      s.scheds = (List.range s.count).map (fun i => t0 + i * period) →
      (run_auto period mc stopFlag jobDur fuel s).1.next_time
          = t0 + (run_auto period mc stopFlag jobDur fuel s).1.count * period ∧
        (run_auto period mc stopFlag jobDur fuel s).1.scheds
          = (List.range (run_auto period mc stopFlag jobDur fuel s).1.count).map
              (fun i => t0 + i * period) := by
  intro fuel
  induction fuel with
  | zero => intro s t0 h1 h2; exact ⟨h1, h2⟩
  | succ fuel ih =>
    intro s t0 h1 h2
    by_cases hstop : stopFlag s.count
    · simp only [run_auto, hstop, if_true]
      exact ⟨h1, h2⟩
    · have hnt : s.next_time + period = t0 + (s.count + 1) * period := by
        rw [h1]; ring
      have hsch : s.scheds ++ [s.next_time]
          = (List.range (s.count + 1)).map (fun i => t0 + i * period) := by
        rw [List.range_succ, List.map_append, h2, h1]
        simp
      cases mc with
      | none =>
        simp only [run_auto, hstop, if_false, Bool.false_eq_true]
        exact ih _ t0 hnt hsch
      | some m =>
        simp only [run_auto, hstop, if_false, Bool.false_eq_true]
        by_cases hm : m ≤ s.count + 1
        · simp only [hm, if_true]
          exact ⟨hnt, hsch⟩
        · simp only [hm, if_false]
          exact ih _ t0 hnt hsch

lemma auto_sleep_slices_le (stopFlag : Nat → Bool) (next_time : Nat) :
    ∀ (fuel k now : Nat),
      ∀ d ∈ (auto_sleep stopFlag next_time fuel k now).2, d ≤ 100 := by
  intro fuel
  induction fuel with
  | zero => intro k now d hd; simp [auto_sleep] at hd
  | succ fuel ih =>
    intro k now d hd
    by_cases hstop : stopFlag k
    · simp [auto_sleep, hstop] at hd
    · by_cases hle : next_time ≤ now
      · simp [auto_sleep, hstop, hle] at hd
      · simp only [auto_sleep, hstop, hle, if_false, Bool.false_eq_true,
          List.mem_cons] at hd
        rcases hd with hd | hd
        · subst hd; exact min_le_left _ _
        · exact ih (k + 1) _ d hd

/-- Claim C4: the scheduled trigger times of an auto-capture run are
`t0 + i * period` — each equals the previous scheduled time plus the
period, independent of the job durations and of the current clock value —
and the inner wait sleeps only in slices of at most 100 ms, with the stop
flag checked before every slice (a set flag ends the wait with no further
slice). -/
theorem auto_drift_corrected (period : Nat) (mc : Option Nat)
    (stopFlag : Nat → Bool) (jobDur : Nat → Nat) (fuel t0 : Nat) :
    (run_auto period mc stopFlag jobDur fuel
        { count := 0, next_time := t0, now := t0, scheds := [] }).1.scheds
      = (List.range (run_auto period mc stopFlag jobDur fuel
          { count := 0, next_time := t0, now := t0, scheds := [] }).1.count).map
          (fun i => t0 + i * period) ∧
    (∀ (stop2 : Nat → Bool) (nt f k now : Nat),
      ∀ d ∈ (auto_sleep stop2 nt f k now).2, d ≤ 100) ∧
    (∀ (stop2 : Nat → Bool) (nt f k now : Nat), stop2 k = true →
      auto_sleep stop2 nt (f + 1) k now = (now, [])) := by
  refine ⟨?_, ?_, ?_⟩
  · exact (run_auto_sched_invariant period mc stopFlag jobDur fuel
      { count := 0, next_time := t0, now := t0, scheds := [] } t0
      (by simp) (by simp)).2
  · intro stop2 nt f k now
    exact auto_sleep_slices_le stop2 nt f k now
  · intro stop2 nt f k now hstop
    simp [auto_sleep, hstop]

theorem auto_drift_corrected_witness :
    (run_auto 7 none (fun _ => false) (fun _ => 3) 4
        { count := 0, next_time := 10, now := 10, scheds := [] }).1.scheds
      = [10, 17, 24, 31] :=
  ((auto_drift_corrected 7 none (fun _ => false) (fun _ => 3) 4 10).1).trans
    (by decide)

lemma run_auto_count_reaches (period : Nat) (m : Nat) (jobDur : Nat → Nat) :
    ∀ (fuel : Nat) (s : AutoState), s.count < m → m ≤ s.count + fuel →
      (run_auto period (some m) (fun _ => false) jobDur fuel s).1.count = m ∧
        (run_auto period (some m) (fun _ => false) jobDur fuel s).2 = true := by
  intro fuel
  induction fuel with
  | zero => intro s hlt hle; omega
  | succ fuel ih =>
    intro s hlt hle
    simp only [run_auto, if_false, Bool.false_eq_true]
    by_cases hm : m ≤ s.count + 1
    · have : s.count + 1 = m := by omega
      simp [hm, this]
    · simp only [hm, if_false]
      exact ih _ (by simp; omega) (by simp; omega)

/-- Claim C5: with `max_count = m` (m ≥ 1) and no external stop request,
an auto-capture session triggers exactly `m` capture jobs and then sets
its own stop flag, ending in the stopped state without any further
external action (given enough fuel for `m` iterations). -/
theorem auto_max_count_stops (period m fuel t0 : Nat) (jobDur : Nat → Nat)
    (hm : 1 ≤ m) (hf : m ≤ fuel) :
    (run_auto period (some m) (fun _ => false) jobDur fuel
        { count := 0, next_time := t0, now := t0, scheds := [] }).1.count = m ∧
    (run_auto period (some m) (fun _ => false) jobDur fuel
        { count := 0, next_time := t0, now := t0, scheds := [] }).2 = true :=
  run_auto_count_reaches period m jobDur fuel
    { count := 0, next_time := t0, now := t0, scheds := [] }
    (by simpa using hm) (by simpa using hf)

theorem auto_max_count_stops_witness :
    (run_auto 5 (some 3) (fun _ => false) (fun _ => 2) 10
        { count := 0, next_time := 0, now := 0, scheds := [] }).1.count = 3 ∧
    (run_auto 5 (some 3) (fun _ => false) (fun _ => 2) 10
        { count := 0, next_time := 0, now := 0, scheds := [] }).2 = true :=
  auto_max_count_stops 5 3 10 0 (fun _ => 2) (by decide) (by decide)

/-! ## Sequence duration estimate
(App._estimate_onvif_sequence_time, app.py 1083-1102)

Per step the code adds the per-step `delay_sec`, then — only when the step
carries a `ptz` mapping — the move time (`duration_sec`, default 0.5, for
a continuous move, else 1.0) plus a fixed 0.2 overhead, and finally clamps
the total at 0. -/

def estimate_onvif_sequence_time (steps : List SeqStep) : ℚ :=
  max 0 (steps.foldl
    (fun total st =>
      let total := total + st.delay_sec.getD 0
      match st.ptz with
      | none => total
      | some cfg =>
        (if cfg.moveType = "continuous" then
          total + cfg.duration_sec.getD (1 / 2)
         else total + 1) + 1 / 5)
    0)

/-- The per-step cost claimed by the spec: delay, plus move time
(`duration_sec` or 0.5 for continuous, else 1.0), plus a fixed 0.2
overhead on every step. -/
def stepCostClaimed (st : SeqStep) : ℚ :=
  st.delay_sec.getD 0 +
  (match st.ptz with
   | none => (1 : ℚ)
   | some cfg =>
     if cfg.moveType = "continuous" then cfg.duration_sec.getD (1 / 2)
     else 1) + 1 / 5

/-- The estimate as the spec words it: the claimed cost summed over all
steps. -/
def specEstimate (steps : List SeqStep) : ℚ := (steps.map stepCostClaimed).sum

/-- The per-step cost the code actually uses: the move time and the 0.2
overhead are added only for steps that carry a `ptz` mapping. -/
def stepCostActual (st : SeqStep) : ℚ :=
  st.delay_sec.getD 0 +
  match st.ptz with
  | none => 0
  | some cfg =>
    (if cfg.moveType = "continuous" then cfg.duration_sec.getD (1 / 2)
     else 1) + 1 / 5

/-- Claim C7 counterexample: for a single step with no `ptz` mapping the
code estimates 0 seconds, while the claimed formula (move time 1.0 plus
0.2 overhead on every step) gives 1.2 seconds. -/
theorem estimate_claim_counterexample :
    estimate_onvif_sequence_time [blankStep] ≠ specEstimate [blankStep] := by
  have h1 : estimate_onvif_sequence_time [blankStep] = 0 := by
    simp [estimate_onvif_sequence_time, blankStep]
  have h2 : specEstimate [blankStep] = 6 / 5 := by
    simp only [specEstimate, List.map_cons, List.map_nil, List.sum_cons,
      List.sum_nil, stepCostClaimed, blankStep]
    norm_num
  rw [h1, h2]
  norm_num

lemma estimate_foldl (steps : List SeqStep) :
    ∀ t : ℚ,
      steps.foldl
        (fun total st =>
          let total := total + st.delay_sec.getD 0
          match st.ptz with
          | none => total
          | some cfg =>
            (if cfg.moveType = "continuous" then
              total + cfg.duration_sec.getD (1 / 2)
             else total + 1) + 1 / 5)
        t
        = t + (steps.map stepCostActual).sum := by
  induction steps with
  | nil => intro t; simp
  | cons st rest ih =>
    intro t
    have hbody :
        (let total := t + st.delay_sec.getD 0
         match st.ptz with
         | none => total
         | some cfg =>
           (if cfg.moveType = "continuous" then
             total + cfg.duration_sec.getD (1 / 2)
            else total + 1) + 1 / 5)
          = t + stepCostActual st := by
      cases hp : st.ptz with
      | none => simp [stepCostActual, hp]
      | some cfg =>
        by_cases hc : cfg.moveType = "continuous" <;>
          simp [stepCostActual, hp, hc] <;> ring
    simp only [List.foldl_cons, List.map_cons, List.sum_cons]
    rw [hbody] at *
    rw [ih (t + stepCostActual st)]
    ring

/-- Claim C7 (amended): the estimated sequence duration equals the sum
over all steps of `delay_sec` plus — only for steps that carry a `ptz`
mapping — the move time (`duration_sec`, default 0.5, for a continuous
move, else 1.0) plus the fixed 0.2 overhead, the total clamped below at
0; steps without a `ptz` mapping contribute no move time and no
overhead. -/
theorem estimate_amended (steps : List SeqStep) :
    estimate_onvif_sequence_time steps
      = max 0 ((steps.map stepCostActual).sum) := by
  unfold estimate_onvif_sequence_time
  rw [estimate_foldl steps 0]
  ring_nf

/-! ## Auto-capture configuration (App.toggle_auto, app.py 677-724)

The pre-flight validation path of `toggle_auto`, as an event trace.  The
trace records status messages, the creation of the destination directory,
the start of the capture loop thread, and any device protocol call (the
function makes none; the constructor exists so that the absence is a
statement about the trace). -/

inductive TEvent where
  | statusMsg (msg : String)
  | mkdirCall
  | loopStart
  | deviceCall
deriving DecidableEq, Repr

structure SeqSettings where
  name : String
  steps : List SeqStep
deriving DecidableEq, Repr

/-- A stripped text field as the code reads it: empty, non-integer text,
or an integer value (the GUI text-to-int conversion itself is a boundary
concern). -/
inductive FieldParse where
  | empty
  | invalid
  | value (d : Int)
deriving DecidableEq, Repr

/-- The tail of `toggle_auto` after both fields validate: when an ONVIF
sequence is configured, the period is checked against the estimate and
the destination directory against the filesystem before the directory is
created and the loop thread started; otherwise the loop starts
directly. -/
def toggle_auto_validated (d : Int) (settings : Option SeqSettings)
    (useOnvif saveDirOk : Bool) : List TEvent :=
  match settings, useOnvif with
  | some st, true =>
    if (d : ℚ) < estimate_onvif_sequence_time st.steps then
      [TEvent.statusMsg ("Delay too short")]
    else if saveDirOk = false then
      [TEvent.statusMsg ("Select an existing folder")]
    else [TEvent.mkdirCall, TEvent.loopStart]
  | _, _ => [TEvent.loopStart]

def toggle_auto (autoRunning : Bool) (delayField maxcapField : FieldParse)
    (settings : Option SeqSettings) (useOnvif saveDirOk : Bool) :
    List TEvent :=
  if autoRunning then [TEvent.statusMsg ("Stopping")]
  else
    match delayField with
    | FieldParse.empty => [TEvent.statusMsg ("Delay is required")]
    | FieldParse.invalid => [TEvent.statusMsg ("Delay must be >= 1")]
    | FieldParse.value d =>
      if d < 1 then [TEvent.statusMsg ("Delay must be >= 1")]
      else
        match maxcapField with
        | FieldParse.invalid => [TEvent.statusMsg ("Max capture must be >= 1")]
        | FieldParse.value m =>
          if m < 1 then [TEvent.statusMsg ("Max capture must be >= 1")]
          else toggle_auto_validated d settings useOnvif saveDirOk
        | FieldParse.empty => toggle_auto_validated d settings useOnvif saveDirOk

/-- Claim C8: when a PTZ sequence is configured for auto-capture and the
requested period is shorter than the estimated sequence duration, the
configuration is rejected with a status message: no device protocol call
is made, the capture loop is never started, and not even the destination
directory is created. -/
theorem toggle_auto_short_period_rejected (st : SeqSettings)
    (saveDirOk : Bool) (d m : Int)
    (h1 : 1 ≤ d) (hm : 1 ≤ m)
    (hshort : (d : ℚ) < estimate_onvif_sequence_time st.steps) :
    toggle_auto false (FieldParse.value d) (FieldParse.value m) (some st)
        true saveDirOk
      = [TEvent.statusMsg ("Delay too short")] ∧
    TEvent.deviceCall ∉
      toggle_auto false (FieldParse.value d) (FieldParse.value m) (some st)
        true saveDirOk ∧
    TEvent.loopStart ∉
      toggle_auto false (FieldParse.value d) (FieldParse.value m) (some st)
        true saveDirOk ∧
    TEvent.mkdirCall ∉
      toggle_auto false (FieldParse.value d) (FieldParse.value m) (some st)
        true saveDirOk := by
  have hd : ¬ d < 1 := by omega
  have hm1 : ¬ m < 1 := by omega
  have heq : toggle_auto false (FieldParse.value d) (FieldParse.value m)
      (some st) true saveDirOk = [TEvent.statusMsg ("Delay too short")] := by
    simp [toggle_auto, toggle_auto_validated, if_neg hd, if_neg hm1,
      if_pos hshort]
  refine ⟨heq, ?_, ?_, ?_⟩ <;> rw [heq] <;> simp

/-- A continuous-move step with a 5-second duration, used as a concrete
input below. -/
def contStep5 : SeqStep :=
  { blankStep with
    ptz := some
      { moveType := "continuous", pan := some 1, tilt := none, zoom := none,
        speed_pan := none, speed_tilt := none, speed_zoom := none,
        duration_sec := some 5 } }

def demoSettings : SeqSettings := { name := "seq", steps := [contStep5] }

theorem toggle_auto_short_period_rejected_witness :
    toggle_auto false (FieldParse.value 2) (FieldParse.value 1)
        (some demoSettings) true true
      = [TEvent.statusMsg ("Delay too short")] := by
  have hest : estimate_onvif_sequence_time demoSettings.steps = 26 / 5 := by
    simp only [demoSettings, estimate_onvif_sequence_time, List.foldl_cons,
      List.foldl_nil, contStep5, blankStep]
    norm_num
  exact (toggle_auto_short_period_rejected demoSettings true 2 1
    (by decide) (by decide) (by rw [hest]; norm_num)).1

/-! ## Profile selection (App._select_profile, app.py 906-920)

A media profile with its encoder resolution; a profile whose encoder
configuration is missing gets area 0 (the code `except` branch).  An
empty list yields `None`, a single profile is returned unchanged, and
otherwise the profiles are sorted by area ascending (a Python stable
sort) and the last is picked for a `main` stream, the first otherwise. -/

structure Profile where
  token : Nat
  res : Option (Nat × Nat)
deriving DecidableEq, Repr

def area (p : Profile) : Nat :=
  match p.res with
  | some r => r.1 * r.2
  | none => 0

def profileLE (a b : Profile) : Prop := area a ≤ area b

instance : DecidableRel profileLE := fun a b => Nat.decLe (area a) (area b)

instance : IsTotal Profile profileLE := ⟨fun a b => Nat.le_total (area a) (area b)⟩

instance : IsTrans Profile profileLE := ⟨fun _ _ _ => Nat.le_trans⟩

def select_profile (stream : String) (profiles : List Profile) :
    Option Profile :=
  match profiles with
  | [] => none
  | [p] => some p
  | a :: b :: t =>
    let sorted := List.insertionSort profileLE (a :: b :: t)
    if stream = "main" then sorted.getLast? else sorted.head?

lemma sorted_area_head :
    ∀ (l : List Profile) (p : Profile), List.Sorted profileLE l →
      l.head? = some p → ∀ q ∈ l, area p ≤ area q := by
  intro l p hs hh q hq
  cases l with
  | nil => simp at hh
  | cons a t =>
    have hpa : p = a := by simpa using hh.symm
    subst hpa
    rcases List.mem_cons.mp hq with hq | hq
    · subst hq; exact le_refl _
    · exact (List.pairwise_cons.mp hs).1 q hq

lemma sorted_area_getLast :
    ∀ (l : List Profile) (p : Profile), List.Sorted profileLE l →
      l.getLast? = some p → ∀ q ∈ l, area q ≤ area p
  | [], p, _, hp => by simp at hp
  | [a], p, _, hp => by
    have hpa : p = a := by simpa using hp.symm
    intro q hq
    have hqa : q = a := by simpa using hq
    rw [hpa, hqa]
  | a :: b :: t, p, hs, hp => by
    have hp2 : (b :: t).getLast? = some p := by
      simpa [List.getLast?_cons_cons] using hp
    have ih := sorted_area_getLast (b :: t) p hs.of_cons hp2
    intro q hq
    rcases List.mem_cons.mp hq with hq | hq
    · rw [hq]
      have hab : area a ≤ area b := (List.pairwise_cons.mp hs).1 b (by simp)
      exact le_trans hab (ih b (by simp))
    · exact ih q hq

lemma mem_of_getLast?_prof {l : List Profile} {p : Profile}
    (hp : l.getLast? = some p) : p ∈ l := by
  cases l with
  | nil => simp at hp
  | cons x xs =>
    rw [List.getLast?_eq_getLast (x :: xs) (by simp)] at hp
    have hpl : p = (x :: xs).getLast (by simp) := by simpa using hp.symm
    rw [hpl]
    exact List.getLast_mem _

/-- Claim C6: for every non-empty profile list, `select_profile` returns a
profile of the list; for a `main` request it has the largest encoded
resolution area, for any other request the smallest; and a singleton list
is returned unchanged regardless of stream type. -/
theorem select_profile_extremal (stream : String) (profiles : List Profile)
    (hne : profiles ≠ []) :
    ∃ p, select_profile stream profiles = some p ∧ p ∈ profiles ∧
      (stream = "main" → ∀ q ∈ profiles, area q ≤ area p) ∧
      (stream ≠ "main" → ∀ q ∈ profiles, area p ≤ area q) ∧
      (∀ x, profiles = [x] → p = x) := by
  match profiles with
  | [] => exact absurd rfl hne
  | [p] =>
    refine ⟨p, rfl, by simp, ?_, ?_, ?_⟩
    · intro _ q hq
      have : q = p := by simpa using hq
      subst this; exact le_refl _
    · intro _ q hq
      have : q = p := by simpa using hq
      subst this; exact le_refl _
    · intro x hx
      simpa using congrArg (fun l => l.head?) hx
  | a :: b :: t =>
    have hperm := List.perm_insertionSort profileLE (a :: b :: t)
    have hsort := List.sorted_insertionSort profileLE (a :: b :: t)
    have hne2 : List.insertionSort profileLE (a :: b :: t) ≠ [] := by
      intro h
      have := hperm.length_eq
      rw [h] at this
      simp at this
    by_cases hmain : stream = "main"
    · obtain ⟨p, hp⟩ :=
        Option.isSome_iff_exists.mp (List.getLast?_isSome.mpr hne2)
      refine ⟨p, ?_, ?_, ?_, ?_, ?_⟩
      · simp only [select_profile, hmain, if_pos]
        exact hp
      · exact (List.mem_insertionSort profileLE).mp (mem_of_getLast?_prof hp)
      · intro _ q hq
        exact sorted_area_getLast _ p hsort hp q (hperm.mem_iff.mpr hq)
      · intro hcon; exact absurd hmain hcon
      · intro x hx; simp at hx
    · obtain ⟨p, hp⟩ :=
        Option.isSome_iff_exists.mp (by
          rw [List.head?_isSome]
          exact hne2)
      refine ⟨p, ?_, ?_, ?_, ?_, ?_⟩
      · simp only [select_profile, hmain, if_neg]
        exact hp
      · have : p ∈ List.insertionSort profileLE (a :: b :: t) :=
          List.mem_of_mem_head? hp
        exact (List.mem_insertionSort profileLE).mp this
      · intro hcon; exact absurd hcon hmain
      · intro _ q hq
        exact sorted_area_head _ p hsort hp q (hperm.mem_iff.mpr hq)
      · intro x hx; simp at hx

theorem select_profile_extremal_witness :
    ([⟨0, some (640, 480)⟩, ⟨1, some (1920, 1080)⟩] : List Profile) ≠ [] ∧
    (∃ p, select_profile ("main")
        [⟨0, some (640, 480)⟩, ⟨1, some (1920, 1080)⟩] = some p ∧
      p ∈ ([⟨0, some (640, 480)⟩, ⟨1, some (1920, 1080)⟩] : List Profile) ∧
      ("main" = "main" → ∀ q ∈ ([⟨0, some (640, 480)⟩,
          ⟨1, some (1920, 1080)⟩] : List Profile), area q ≤ area p) ∧
      ("main" ≠ "main" → ∀ q ∈ ([⟨0, some (640, 480)⟩,
          ⟨1, some (1920, 1080)⟩] : List Profile), area p ≤ area q) ∧
      (∀ x, ([⟨0, some (640, 480)⟩, ⟨1, some (1920, 1080)⟩] : List Profile)
          = [x] → p = x)) :=
  ⟨by simp, select_profile_extremal ("main") _ (by simp)⟩

/-! ## Waiting for PTZ idle (App._wait_ptz_idle, app.py 1074-1081)

The code polls `GetStatus` every 100 ms for up to 8 seconds and returns
early when both axes report "IDLE"; time is idealised to one tick per
poll, giving at most 80 polls.  The device behaviour is a function from
the poll number to either a raised error or a status document; notably
the code does not guard the `GetStatus` call itself. -/

structure MoveInfo where
  panTilt : Option String
  zoom : Option String
deriving DecidableEq, Repr

structure PtzStatus where
  moveStatus : Option MoveInfo
deriving DecidableEq, Repr

def isIdleStatus (st : PtzStatus) : Bool :=
  match st.moveStatus with
  | some m => m.panTilt == some ("IDLE") && m.zoom == some ("IDLE")
  | none => false

/-- The poll loop: `r` remaining polls before the 8 s deadline, `k` the
current poll number.  Returns the outcome (an error propagates) and the
number of polls performed. -/
def wait_ptz_idle_aux (getStat : Nat → Except String PtzStatus) :
    Nat → Nat → Except String Unit × Nat
  | 0, _ => (Except.ok (), 0)
  | r + 1, k =>
    match getStat k with
    | Except.error e => (Except.error e, 1)
    | Except.ok st =>
      if isIdleStatus st then (Except.ok (), 1)
      else
        let res := wait_ptz_idle_aux getStat r (k + 1)
        (res.1, res.2 + 1)

def wait_ptz_idle (getStat : Nat → Except String PtzStatus) :
    Except String Unit × Nat :=
  wait_ptz_idle_aux getStat 80 0

/-- Claim C9 counterexample: a device whose status call raises makes
`_wait_ptz_idle` itself raise — the error propagates to the caller, so
the operation is not exception-free for every device status behavior. -/
theorem wait_ptz_idle_raises :
    (wait_ptz_idle (fun _ => Except.error ("DeviceError"))).1
      = Except.error ("DeviceError") := rfl

lemma wait_aux_ok (getStat : Nat → Except String PtzStatus)
    (h : ∀ j, ∃ st, getStat j = Except.ok st) :
    ∀ (r k : Nat), (wait_ptz_idle_aux getStat r k).1 = Except.ok () ∧
      (wait_ptz_idle_aux getStat r k).2 ≤ r := by
  intro r
  induction r with
  | zero => intro k; exact ⟨rfl, le_refl 0⟩
  | succ r ih =>
    intro k
    obtain ⟨st, hst⟩ := h k
    by_cases hidle : isIdleStatus st
    · simp [wait_ptz_idle_aux, hst, hidle]
    · have := ih (k + 1)
      simp only [wait_ptz_idle_aux, hst, hidle, if_false, Bool.false_eq_true]
      exact ⟨this.1, by omega⟩

lemma wait_aux_first_idle (getStat : Nat → Except String PtzStatus) :
    ∀ (i r k : Nat) (st : PtzStatus), i < r →
      getStat (k + i) = Except.ok st → isIdleStatus st = true →
      (∀ j, j < i → ∃ st2, getStat (k + j) = Except.ok st2 ∧
        isIdleStatus st2 = false) →
      wait_ptz_idle_aux getStat r k = (Except.ok (), i + 1) := by
  intro i
  induction i with
  | zero =>
    intro r k st hir hst hidle _
    match r, hir with
    | r + 1, _ =>
      simp only [Nat.add_zero] at hst
      simp [wait_ptz_idle_aux, hst, hidle]
  | succ i ih =>
    intro r k st hir hst hidle hbefore
    match r, hir with
    | r + 1, _ =>
      obtain ⟨st0, hst0, hnidle0⟩ := hbefore 0 (Nat.succ_pos i)
      simp only [Nat.add_zero] at hst0
      have hrec := ih r (k + 1) st (by omega)
        (by rw [show k + 1 + i = k + (i + 1) by omega]; exact hst) hidle
        (fun j hj => by
          obtain ⟨st2, h2, h3⟩ := hbefore (j + 1) (by omega)
          exact ⟨st2, by rw [show k + 1 + j = k + (j + 1) by omega]; exact h2,
            h3⟩)
      simp [wait_ptz_idle_aux, hst0, hnidle0, hrec]

lemma wait_aux_timeout (getStat : Nat → Except String PtzStatus) :
    ∀ (r k : Nat),
      (∀ j, j < r → ∃ st, getStat (k + j) = Except.ok st ∧
        isIdleStatus st = false) →
      wait_ptz_idle_aux getStat r k = (Except.ok (), r) := by
  intro r
  induction r with
  | zero => intro k _; rfl
  | succ r ih =>
    intro k h
    obtain ⟨st0, hst0, hnidle0⟩ := h 0 (Nat.succ_pos r)
    simp only [Nat.add_zero] at hst0
    have hrec := ih (k + 1) (fun j hj => by
      obtain ⟨st2, h2, h3⟩ := h (j + 1) (by omega)
      exact ⟨st2, by rw [show k + 1 + j = k + (j + 1) by omega]; exact h2, h3⟩)
    simp [wait_ptz_idle_aux, hst0, hnidle0, hrec]

/-- Claim C9 (amended): as long as the device status calls themselves do
not raise, `_wait_ptz_idle` never raises whatever the status contents:
it performs at most 80 polls (8 s at 100 ms intervals), returns after
poll `k + 1` when poll `k` is the first reporting both pan-tilt and zoom
idle within the deadline, and performs the full 80 polls when no poll
reports idle — whichever comes first.  (A raised status call propagates;
see the counterexample.) -/
theorem wait_ptz_idle_best_effort (getStat : Nat → Except String PtzStatus)
    (h : ∀ j, ∃ st, getStat j = Except.ok st) :
    (wait_ptz_idle getStat).1 = Except.ok () ∧
    (wait_ptz_idle getStat).2 ≤ 80 ∧
    (∀ (k : Nat) (st : PtzStatus), k < 80 →
      getStat k = Except.ok st → isIdleStatus st = true →
      (∀ j, j < k → ∃ st2, getStat j = Except.ok st2 ∧
        isIdleStatus st2 = false) →
      (wait_ptz_idle getStat).2 = k + 1) ∧
    ((∀ j, j < 80 → ∃ st, getStat j = Except.ok st ∧
        isIdleStatus st = false) →
      (wait_ptz_idle getStat).2 = 80) := by
  refine ⟨(wait_aux_ok getStat h 80 0).1, (wait_aux_ok getStat h 80 0).2,
    ?_, ?_⟩
  · intro k st hk hst hidle hbefore
    have := wait_aux_first_idle getStat k 80 0 st hk
      (by simpa using hst) hidle
      (fun j hj => by simpa using hbefore j hj)
    rw [wait_ptz_idle, this]
  · intro hall
    have := wait_aux_timeout getStat 80 0 (fun j hj => by
      simpa using hall j hj)
    rw [wait_ptz_idle, this]

/-- An idle status document. -/
def idleSt : PtzStatus :=
  { moveStatus := some { panTilt := some ("IDLE"), zoom := some ("IDLE") } }

theorem wait_ptz_idle_best_effort_witness :
    (wait_ptz_idle (fun _ => Except.ok idleSt)).1 = Except.ok () :=
  (wait_ptz_idle_best_effort (fun _ => Except.ok idleSt)
    (fun _ => ⟨idleSt, rfl⟩)).1

/-! ## Applying one PTZ step (App._apply_onvif_step, app.py 1104-1161)

The protocol calls one step issues, as a trace.  `pollN` is the number of
status polls the embedded wait performs and `hasFocus` whether the video
source reports a focus section.  Motion calls are gated on the step
`ptz` mapping specifying at least one of the pan, tilt or zoom axes
(speeds alone never trigger a move); both focus branches issue a
`GetImagingSettings` and, when a focus section exists, a
`SetImagingSettings`. -/

inductive PCall where
  | continuousMove
  | ptzStop
  | absoluteMove
  | relativeMove
  | getStatus
  | getImaging
  | setImaging
deriving DecidableEq, Repr

def apply_onvif_step (pollN : Nat) (hasFocus : Bool) (st : SeqStep) :
    List PCall :=
  (match st.ptz with
   | none => []
   | some cfg =>
     let hasAxis := cfg.pan.isSome || cfg.tilt.isSome || cfg.zoom.isSome
     if cfg.moveType = "continuous" then
       if hasAxis then
         [PCall.continuousMove, PCall.ptzStop]
           ++ List.replicate pollN PCall.getStatus
       else []
     else if cfg.moveType = "absolute" then
       if hasAxis then
         PCall.absoluteMove :: List.replicate pollN PCall.getStatus
       else []
     else
       if hasAxis then
         PCall.relativeMove :: List.replicate pollN PCall.getStatus
       else [])
  ++ (PCall.getImaging :: if hasFocus then [PCall.setImaging] else [])

/-- Claim C10: a step whose `ptz` mapping specifies none of the pan, tilt
or zoom axes issues no motion protocol call at all — no move, no stop and
no motion-status poll — only the focus handling: a `GetImagingSettings`
and, when the source has a focus section, a `SetImagingSettings`. -/
theorem apply_step_no_axes_no_motion (pollN : Nat) (hasFocus : Bool)
    (st : SeqStep) (cfg : PtzCfg) (hp : st.ptz = some cfg)
    (h1 : cfg.pan = none) (h2 : cfg.tilt = none) (h3 : cfg.zoom = none) :
    apply_onvif_step pollN hasFocus st
      = PCall.getImaging :: (if hasFocus then [PCall.setImaging] else []) ∧
    ∀ c ∈ apply_onvif_step pollN hasFocus st,
      c ≠ PCall.continuousMove ∧ c ≠ PCall.ptzStop ∧
      c ≠ PCall.absoluteMove ∧ c ≠ PCall.relativeMove ∧
      c ≠ PCall.getStatus := by
  have heq : apply_onvif_step pollN hasFocus st
      = PCall.getImaging :: (if hasFocus then [PCall.setImaging] else []) := by
    simp [apply_onvif_step, hp, h1, h2, h3]
  refine ⟨heq, ?_⟩
  intro c hc
  rw [heq] at hc
  rcases List.mem_cons.mp hc with hc | hc
  · rw [hc]; refine ⟨by simp, by simp, by simp, by simp, by simp⟩
  · cases hasFocus with
    | false => simp at hc
    | true =>
      have : c = PCall.setImaging := by simpa using hc
      rw [this]
      refine ⟨by simp, by simp, by simp, by simp, by simp⟩

/-- A step whose ptz mapping sets only a speed and no axis. -/
def speedOnlyStep : SeqStep :=
  { blankStep with
    ptz := some
      { moveType := "relative", pan := none, tilt := none, zoom := none,
        speed_pan := some 1, speed_tilt := none, speed_zoom := none,
        duration_sec := none } }

theorem apply_step_no_axes_no_motion_witness :
    apply_onvif_step 3 true speedOnlyStep
      = PCall.getImaging
          :: (if true then [PCall.setImaging] else []) :=
  (apply_step_no_axes_no_motion 3 true speedOnlyStep _ rfl rfl rfl rfl).1

end Minicam
